import Mathlib

/-
Verification of the Logseq namespace-to-folder converter
(src/import/logseq/convert.py) against its natural-language specification.

The script is embedded shallowly:

* A filesystem snapshot is a list of entries, each an absolute path
  (a list of name components), a node kind (file or directory) and an
  identity tag.  The tag tracks a concrete file across moves and
  overwrites; the script never reads or writes file contents, so the tag
  is the only payload needed.  The order of the entry list stands in for
  the (unspecified) directory-listing order of `Path.glob`.
* Python `str.split("___")` / `"___" in s` are embedded as `splitSep` /
  `containsSep` over `List Char`.
* `pathlib` joining drops empty and `"."` components (`Path("a") / "" ==
  Path("a")`); `pjoin` mirrors this.  `".."` components are kept
  literally, as `pathlib` does (the OS-level resolution of `".."` is not
  modelled; no run below depends on it).
* Exceptions propagate: `convert_namespace_to_folders` returns
  `Except ConvCrash ConvOk`, the error carrying the filesystem and the
  console output at the moment the uncaught exception escapes.
-/

set_option autoImplicit false

namespace LogseqConvert

/-- Kinds of filesystem nodes. -/
inductive NodeKind where
  | file
  | dir
deriving DecidableEq, Repr

/-- A name component of a path (Python `str`, as its character list). -/
abbrev Name := List Char

/-- A filesystem path: the list of its name components. -/
abbrev FPath := List Name

/-- One filesystem entry: its absolute path, node kind, and an identity
tag that lets a theorem track a concrete file across moves and
overwrites (file contents are never touched by the script). -/
structure Entry where
  path : FPath
  kind : NodeKind
  tag : Nat
deriving DecidableEq, Repr

/-- A filesystem snapshot.  The list order of `entries` stands in for
the directory-listing order used by `Path.glob`. -/
structure FS where
  entries : List Entry
deriving DecidableEq, Repr

/-- Boolean test that list `l` starts with the list `p`. -/
def startsWithL {α : Type} [DecidableEq α] : List α → List α → Bool
  | [], _ => true
  | _ :: _, [] => false
  | a :: as, b :: bs => if a = b then startsWithL as bs else false

/-- The namespace separator `"___"` of the script. -/
def SEP : Name := "___".data

/-- The markdown extension `".md"` of the script. -/
def mdSuffix : Name := ".md".data

/-- Embedding of Python `"___" in s` (substring containment of the
separator). -/
def containsSep : Name → Bool
  | [] => false
  | c :: rest => if startsWithL SEP (c :: rest) = true then true else containsSep rest

/-- Helper for `splitSep`: locate the leftmost occurrence of `SEP`,
returning the part before it and the part after it. -/
def breakSep : Name → Option (Name × Name)
  | [] => none
  | c :: rest =>
    if startsWithL SEP (c :: rest) = true then some ([], rest.drop 2)
    else
      match breakSep rest with
      | none => none
      | some (pre, post) => some (c :: pre, post)

/-- Fuel-indexed worker for `splitSep` (structural recursion on the
fuel, so that applications reduce definitionally). -/
def splitSepF : Nat → Name → List Name
  | 0, s => [s]
  | fuel + 1, s =>
    match breakSep s with
    | none => [s]
    | some (pre, post) => pre :: splitSepF fuel post

/-- Embedding of Python `s.split("___")`: leftmost, non-overlapping
splitting on the separator.  Like Python, the result is never empty and
may contain empty chunks (`"___x".split("___") == ["", "x"]`). -/
def splitSep (s : Name) : List Name := splitSepF s.length s

/-- Joining with the separator; the inverse direction of `splitSep`. -/
def joinSep : List Name → Name
  | [] => []
  | [c] => c
  | c :: c' :: rest => c ++ SEP ++ joinSep (c' :: rest)

/-- Embedding of `pathlib.Path.stem` specialized to names that end in
`".md"` (the only names it is applied to, coming from `glob("*.md")`):
the name without the `".md"` suffix, except that `".md"` itself has no
suffix and is its own stem. -/
def stemOfName (n : Name) : Name :=
  if n = mdSuffix then n else n.take (n.length - 3)

/-- The `"."` path component. -/
def dotName : Name := ".".data

/-- Embedding of `pathlib` path joining with one component:
empty and `"."` components are dropped (`Path("a") / "" == Path("a")`). -/
def pjoin (p : FPath) (n : Name) : FPath :=
  if n = [] ∨ n = dotName then p else p ++ [n]

/-- The last name component of a path (its `Path.name`). -/
def lastName (p : FPath) : Name := p.getLastD []

/-- Boolean test that a name ends with `".md"` — what the glob pattern
`"*.md"` matches (pathlib matches any directory entry by name only,
regardless of its kind). -/
def endsMd (n : Name) : Bool := startsWithL mdSuffix.reverse n.reverse

/-- Does any entry live at path `p` (Python `Path.exists`)? -/
def FS.pathExists (fs : FS) (p : FPath) : Bool :=
  fs.entries.any (fun e => decide (e.path = p))

/-- Is there a directory at path `p` (Python `Path.is_dir`)? -/
def FS.isDir (fs : FS) (p : FPath) : Bool :=
  fs.entries.any (fun e => decide (e.path = p ∧ e.kind = NodeKind.dir))

/-- Append a fresh directory entry at path `p` (fresh directories carry
tag `0`; their identity is never tracked by a claim). -/
def FS.addDir (fs : FS) (p : FPath) : FS :=
  ⟨fs.entries ++ [⟨p, NodeKind.dir, 0⟩]⟩

/-- A top-level entry of directory `d` whose name matches `"*.md"`:
exactly what `dir_path.glob("*.md")` yields (non-recursive, any kind). -/
def isTopMd (d p : FPath) : Bool :=
  decide (p.length = d.length + 1) && startsWithL d p && endsMd (lastName p)

/-- Embedding of `dir_path.glob("*.md")`: the paths of the top-level
`*.md` entries of `d`, in listing order. -/
def FS.globMd (fs : FS) (d : FPath) : List FPath :=
  (fs.entries.filter (fun e => isTopMd d e.path)).map Entry.path

/-- Rename the subtree rooted at `src` to `dst`, silently replacing a
pre-existing entry at `dst` (POSIX `os.rename` last-write-wins). -/
def FS.rename (fs : FS) (src dst : FPath) : FS :=
  ⟨fs.entries.filterMap (fun e =>
    if startsWithL src e.path = true then
      some { e with path := dst ++ e.path.drop src.length }
    else if e.path = dst then none
    else some e)⟩

/-- The errors an individual candidate can raise (all uncaught in the
script). -/
inductive ConvErr where
  /-- `Path.mkdir(exist_ok=True)` hit an existing non-directory
  (`FileExistsError`). -/
  | mkdirFailed (p : FPath)
  /-- `shutil.move` found the destination to be a directory already
  containing the source's name (`shutil.Error`). -/
  | moveDstExists (p : FPath)
  /-- `os.rename` found no source to move (`FileNotFoundError`). -/
  | moveSrcMissing (p : FPath)
deriving DecidableEq, Repr

/-- Embedding of `shutil.move(src, dst)`: if `dst` is an existing
directory the source is moved inside it under its own name (erroring if
that path already exists); otherwise the source is renamed onto `dst`,
silently replacing an existing file there. -/
def FS.moveFile (fs : FS) (src dst : FPath) : Except ConvErr FS :=
  let realDst := if fs.isDir dst = true then dst ++ [lastName src] else dst
  if fs.isDir dst = true ∧ fs.pathExists realDst = true then
    Except.error (ConvErr.moveDstExists realDst)
  else if fs.pathExists src = false then
    Except.error (ConvErr.moveSrcMissing src)
  else Except.ok (fs.rename src realDst)

/-- Result of the `mkdir` loop: the filesystem as mutated so far, plus
either the final folder path or the path whose creation raised. -/
inductive MkdirsResult where
  | ok (fs : FS) (folder : FPath)
  | failed (fs : FS) (p : FPath)
deriving DecidableEq, Repr

/-- Embedding of the folder-creation loop
`for part in parts[:-1]: folder_path = folder_path / part;
folder_path.mkdir(exist_ok=True)`: descend through the parts, creating
each missing folder; an existing non-directory at a required path makes
`mkdir` raise `FileExistsError`. -/
def mkdirs : FS → FPath → List Name → MkdirsResult
  | fs, folder, [] => MkdirsResult.ok fs folder
  | fs, folder, part :: rest =>
    if fs.isDir (pjoin folder part) = true then mkdirs fs (pjoin folder part) rest
    else if fs.pathExists (pjoin folder part) = true then
      MkdirsResult.failed fs (pjoin folder part)
    else mkdirs (fs.addDir (pjoin folder part)) (pjoin folder part) rest

/-- The path separator used when rendering paths. -/
def slash : String := "/"

/-- Render a name back to a string (for console messages). -/
def renderName (n : Name) : String := String.mk n

/-- Render a path with `"/"` separators (POSIX `str(Path)`). -/
def renderPath (p : FPath) : String :=
  String.intercalate slash (p.map String.mk)

/-- The per-file console line
`f"Converting: {md_file.name} -> {new_file_path.relative_to(dir_path)}"`. -/
def convertingLine (src dst d : FPath) : String :=
  "Converting: " ++ renderName (lastName src) ++ " -> " ++ renderPath (dst.drop d.length)

/-- The summary line `f"\nConverted {converted_count} files in-place"`. -/
def summaryLine (n : Nat) : String :=
  "\nConverted " ++ toString n ++ " files in-place"

/-- The missing-directory line
`f"Error: Directory '{directory}' does not exist"`. -/
def dirMissingLine (d : FPath) : String :=
  "Error: Directory \x27" ++ renderPath d ++ "\x27 does not exist"

/-- The running state of the conversion loop: the filesystem, the lines
printed so far, and `converted_count`. -/
structure Step where
  fs : FS
  printed : List String
  count : Nat
deriving DecidableEq, Repr

/-- An uncaught exception escaping `convert_namespace_to_folders`,
with the filesystem and console output at that moment. -/
structure ConvCrash where
  err : ConvErr
  fs : FS
  printed : List String
deriving DecidableEq, Repr

/-- The loop body of `convert_namespace_to_folders` for one globbed
entry `src`: skip it when its stem has no separator; otherwise create
the folder chain for all parts but the last, print the `Converting:`
line, and move the entry to `folder / (last_part + ".md")`.  Any error
is an uncaught exception that aborts the whole run. -/
def processEntry (d : FPath) (st : Step) (src : FPath) : Except ConvCrash Step :=
  let filename := stemOfName (lastName src)
  if containsSep filename = true then
    let parts := splitSep filename
    match mkdirs st.fs d parts.dropLast with
    | MkdirsResult.failed fs1 p =>
      Except.error ⟨ConvErr.mkdirFailed p, fs1, st.printed⟩
    | MkdirsResult.ok fs1 folder =>
      let dst := pjoin folder (parts.getLastD [] ++ mdSuffix)
      let line := convertingLine src dst d
      match fs1.moveFile src dst with
      | Except.error e => Except.error ⟨e, fs1, st.printed ++ [line]⟩
      | Except.ok fs2 => Except.ok ⟨fs2, st.printed ++ [line], st.count + 1⟩
  else Except.ok st

/-- Fold `processEntry` over the globbed candidates; the first uncaught
exception aborts the whole loop. -/
def runFiles (d : FPath) : Step → List FPath → Except ConvCrash Step
  | st, [] => Except.ok st
  | st, src :: rest =>
    match processEntry d st src with
    | Except.error c => Except.error c
    | Except.ok st' => runFiles d st' rest

/-- The normal outcome of `convert_namespace_to_folders`: the final
filesystem, the printed lines, and the Python return value (a bare
boolean — the code has `return False` / `return True` only). -/
structure ConvOk where
  fs : FS
  printed : List String
  ret : Bool
deriving DecidableEq, Repr

/-- Embedding of `convert_namespace_to_folders(directory)`: check
`Path(directory).exists()` (not `is_dir`!), then process every
`glob("*.md")` candidate in listing order, and finally print the
summary line and return `True`. -/
def convert_namespace_to_folders (fs : FS) (d : FPath) : Except ConvCrash ConvOk :=
  if fs.pathExists d = true then
    match runFiles d ⟨fs, [], 0⟩ (fs.globMd d) with
    | Except.error c => Except.error c
    | Except.ok st => Except.ok ⟨st.fs, st.printed ++ [summaryLine st.count], true⟩
  else Except.ok ⟨fs, [dirMissingLine d], false⟩

/-- Embedding of Python `str.lower` (ASCII-adequate for the accepted
answers `"y"`/`"yes"`). -/
def pyLower (s : String) : String := String.mk (s.data.map Char.toLower)

/-- Embedding of Python `str.strip`: drop leading and trailing
whitespace. -/
def pyStrip (s : String) : String :=
  String.mk (((s.data.dropWhile Char.isWhitespace).reverse.dropWhile Char.isWhitespace).reverse)

/-- The normalization `response.lower().strip()` applied to the
confirmation answer before comparing with `['y', 'yes']`. -/
def normalizeResponse (r : String) : String := pyStrip (pyLower r)

/-- Split a character list on `'/'` (structural, so that applications
reduce definitionally). -/
def splitSlash : List Char → List Name
  | [] => [[]]
  | c :: rest =>
    if c = '/' then [] :: splitSlash rest
    else
      match splitSlash rest with
      | [] => [[c]]
      | chunk :: more => (c :: chunk) :: more

/-- Embedding of `Path(directory)` for a command-line string: split on
`"/"`, dropping empty and `"."` components (relative paths; no claim
exercises absolute-path anchors). -/
def parsePath (s : String) : FPath :=
  (splitSlash s.data).filter (fun c => decide (c ≠ [] ∧ c ≠ dotName))

/-- The usage text printed when `len(sys.argv) != 2`. -/
def usageLines : List String :=
  ["Usage: python convert.py <logseq_directory>",
   "\nExample:",
   "  python convert.py ~/logseq/pages",
   "  python convert.py ./exported-pages"]

/-- The banner printed before the confirmation prompt. -/
def headerLines (dirStr : String) : List String :=
  ["Converting Logseq format in: " ++ dirStr,
   "WARNING: This will modify files in-place!",
   "",
   "Continue? (y/N): "]

/-- The empty string (the unused `getD` default when reading `argv`). -/
def emptyStr : String := ""

/-- How the process ends: `sys.exit(code)` / normal return, or an
uncaught exception (Python then dies with a traceback). -/
inductive Outcome where
  | exited (code : Nat)
  | exception (e : ConvErr)
deriving DecidableEq, Repr

/-- The observable result of `main`: final filesystem, console output,
and how the process ended. -/
structure MainOut where
  fs : FS
  printed : List String
  outcome : Outcome
deriving DecidableEq, Repr

/-- Embedding of `main()`: `argv` is the full `sys.argv` (program name
included) and `response` is the line read by `input()`.  Wrong argument
count prints usage and exits 1; an answer other than (normalized) `y` /
`yes` prints `Cancelled.` and exits 0; otherwise the converter runs and
its boolean decides between exit 0 and exit 1. -/
def main (argv : List String) (response : String) (fs : FS) : MainOut :=
  if argv.length = 2 then
    let dirStr := argv.getD 1 emptyStr
    let d := parsePath dirStr
    let hdr := headerLines dirStr
    let resp := normalizeResponse response
    if resp = "y" ∨ resp = "yes" then
      match convert_namespace_to_folders fs d with
      | Except.ok r =>
        if r.ret = true then
          ⟨r.fs, hdr ++ r.printed ++ ["\nConversion complete!"], Outcome.exited 0⟩
        else
          ⟨r.fs, hdr ++ r.printed ++ ["\nConversion failed!"], Outcome.exited 1⟩
      | Except.error c => ⟨c.fs, hdr ++ c.printed, Outcome.exception c.err⟩
    else ⟨fs, hdr ++ ["Cancelled."], Outcome.exited 0⟩
  else ⟨fs, usageLines, Outcome.exited 1⟩

/-- The chain of folder paths visited by the `mkdir` loop, in order. -/
def folderChain : FPath → List Name → List FPath
  | _, [] => []
  | q, part :: rest => pjoin q part :: folderChain (pjoin q part) rest

/-- The separator chunks of a candidate's stem. -/
def partsOf (src : FPath) : List Name := splitSep (stemOfName (lastName src))

/-- The destination file path of a candidate, given the folder the
`mkdir` loop ended in. -/
def dstOf (folder : FPath) (src : FPath) : FPath :=
  pjoin folder ((partsOf src).getLastD [] ++ mdSuffix)

/-- The destination path a candidate would be converted to: all chunks
but the last become nested folders under `d`, the last chunk plus
`".md"` becomes the file name. -/
def destPathOf (d : FPath) (src : FPath) : FPath :=
  dstOf ((partsOf src).dropLast.foldl pjoin d) src

/-- Bool test whether a crash came from the mkdir loop. -/
def isMkdirErr : ConvErr → Bool
  | ConvErr.mkdirFailed _ => true
  | _ => false

/-- The filesystem state left behind by a call of the converter,
whether it returned or crashed. -/
def fsAfterConvert (fs : FS) (d : FPath) : FS :=
  match convert_namespace_to_folders fs d with
  | Except.ok r => r.fs
  | Except.error c => c.fs

/-! ### Concrete fixtures for the claims -/

/-- Whether no top-level `*.md` entry of `d` still has a separator in
its stem (what a second run of the converter would look for). -/
def topSepFree (fs : FS) (d : FPath) : Bool :=
  fs.entries.all (fun x => !(isTopMd d x.path && containsSep (stemOfName (lastName x.path))))

/-- The target directory `d` used by the concrete runs. -/
def dP : FPath := ["d".data]

/-- A directory holding the spec's two examples `foo___bar.md` and
`a___b___c.md`. -/
def fsExamples : FS :=
  ⟨[⟨dP, NodeKind.dir, 0⟩,
    ⟨dP ++ ["foo___bar.md".data], NodeKind.file, 1⟩,
    ⟨dP ++ ["a___b___c.md".data], NodeKind.file, 2⟩]⟩

/-- The filesystem after a full run of the converter on `fsExamples`. -/
def fsExamplesAfter : FS :=
  ⟨[⟨dP, NodeKind.dir, 0⟩,
    ⟨dP ++ ["foo".data, "bar.md".data], NodeKind.file, 1⟩,
    ⟨dP ++ ["a".data, "b".data, "c.md".data], NodeKind.file, 2⟩,
    ⟨dP ++ ["foo".data], NodeKind.dir, 0⟩,
    ⟨dP ++ ["a".data], NodeKind.dir, 0⟩,
    ⟨dP ++ ["a".data, "b".data], NodeKind.dir, 0⟩]⟩

/-- The console lines of that run. -/
def examplesOut : List String :=
  ["Converting: foo___bar.md -> foo/bar.md",
   "Converting: a___b___c.md -> a/b/c.md",
   summaryLine 2]

/-- A directory whose only `*.md`-named top-level entry is itself a
DIRECTORY, with a file inside it. -/
def fsDirCand : FS :=
  ⟨[⟨dP, NodeKind.dir, 0⟩,
    ⟨dP ++ ["x___y.md".data], NodeKind.dir, 5⟩,
    ⟨dP ++ ["x___y.md".data, "note.md".data], NodeKind.file, 6⟩]⟩

/-- `fsDirCand` after the run: the directory and its subtree moved. -/
def fsDirCandAfter : FS :=
  ⟨[⟨dP, NodeKind.dir, 0⟩,
    ⟨dP ++ ["x".data, "y.md".data], NodeKind.dir, 5⟩,
    ⟨dP ++ ["x".data, "y.md".data, "note.md".data], NodeKind.file, 6⟩,
    ⟨dP ++ ["x".data], NodeKind.dir, 0⟩]⟩

/-- A directory where a regular file at `d/x` blocks the folder needed
by the first candidate `x___y.md`, with a second candidate after it. -/
def fsAbort : FS :=
  ⟨[⟨dP, NodeKind.dir, 0⟩,
    ⟨dP ++ ["x___y.md".data], NodeKind.file, 1⟩,
    ⟨dP ++ ["x".data], NodeKind.file, 2⟩,
    ⟨dP ++ ["p___q.md".data], NodeKind.file, 3⟩]⟩

/-- The crash a run over `fsAbort` ends in. -/
def cAbort : ConvCrash := ⟨ConvErr.mkdirFailed (dP ++ ["x".data]), fsAbort, []⟩

/-- An empty target directory. -/
def fsOnlyDir : FS := ⟨[⟨dP, NodeKind.dir, 0⟩]⟩

/-- A separator-free file `x.md` next to the candidate `___x.md`, whose
destination collides with it. -/
def fsOverwrite : FS :=
  ⟨[⟨dP, NodeKind.dir, 0⟩,
    ⟨dP ++ ["x.md".data], NodeKind.file, 1⟩,
    ⟨dP ++ ["___x.md".data], NodeKind.file, 2⟩]⟩

/-- A regular FILE sitting at the path given as the target directory. -/
def fsFileAtPath : FS := ⟨[⟨dP, NodeKind.file, 9⟩]⟩

/-- A separator-free file `x.md` next to a candidate `a___b.md` whose
destination does not collide with it. -/
def fsSkipKeep : FS :=
  ⟨[⟨dP, NodeKind.dir, 0⟩,
    ⟨dP ++ ["x.md".data], NodeKind.file, 1⟩,
    ⟨dP ++ ["a___b.md".data], NodeKind.file, 2⟩]⟩

/-- `fsSkipKeep` after the run. -/
def fsSkipKeepAfter : FS :=
  ⟨[⟨dP, NodeKind.dir, 0⟩,
    ⟨dP ++ ["x.md".data], NodeKind.file, 1⟩,
    ⟨dP ++ ["a".data, "b.md".data], NodeKind.file, 2⟩,
    ⟨dP ++ ["a".data], NodeKind.dir, 0⟩]⟩

/-- A directory where the candidate `a___b.md` has an existing directory
`a/b.md` as its destination, which already contains an entry named
`a___b.md` — the configuration on which `shutil.move` raises. -/
def fsMoveErr : FS :=
  ⟨[⟨dP, NodeKind.dir, 0⟩,
    ⟨dP ++ ["a___b.md".data], NodeKind.file, 1⟩,
    ⟨dP ++ ["a".data], NodeKind.dir, 2⟩,
    ⟨dP ++ ["a".data, "b.md".data], NodeKind.dir, 3⟩,
    ⟨dP ++ ["a".data, "b.md".data, "a___b.md".data], NodeKind.file, 4⟩]⟩

/-- The path of the candidate of `fsMoveErr`. -/
def srcMoveErr : FPath := dP ++ ["a___b.md".data]

/-- The crash processing that candidate ends in. -/
def cMoveErr : ConvCrash :=
  ⟨ConvErr.moveDstExists (dP ++ ["a".data, "b.md".data, "a___b.md".data]), fsMoveErr,
    ["Converting: a___b.md -> a/b.md"]⟩

/-! ### Basic list lemmas -/

theorem startsWithL_iff {α : Type} [DecidableEq α] (p l : List α) :
    startsWithL p l = true ↔ ∃ t, l = p ++ t := by
  induction p generalizing l with
  | nil => simp [startsWithL]
  | cons a as ih =>
    cases l with
    | nil => simp [startsWithL]
    | cons b bs =>
      by_cases hab : a = b
      · subst hab
        rw [show startsWithL (a :: as) (a :: bs) = startsWithL as bs from by
          simp [startsWithL], ih]
        constructor
        · rintro ⟨t, rfl⟩; exact ⟨t, rfl⟩
        · rintro ⟨t, ht⟩
          refine ⟨t, ?_⟩
          injection ht
      · rw [show startsWithL (a :: as) (b :: bs) = false from by simp [startsWithL, hab]]
        constructor
        · intro h; simp at h
        · rintro ⟨t, ht⟩
          injection ht with h1 _
          exact absurd h1.symm hab

theorem startsWithL_self {α : Type} [DecidableEq α] (l : List α) :
    startsWithL l l = true :=
  (startsWithL_iff l l).2 ⟨[], by simp⟩

theorem startsWithL_length {α : Type} [DecidableEq α] {p l : List α}
    (h : startsWithL p l = true) : p.length ≤ l.length := by
  obtain ⟨t, rfl⟩ := (startsWithL_iff p l).1 h
  simp

theorem startsWithL_eq_of_length {α : Type} [DecidableEq α] {p l : List α}
    (h : startsWithL p l = true) (hl : p.length = l.length) : p = l := by
  obtain ⟨t, rfl⟩ := (startsWithL_iff p l).1 h
  have : t = [] := by
    have := hl
    simp only [List.length_append] at this
    exact List.eq_nil_of_length_eq_zero (by omega)
  simp [this]

theorem takeLenAppend {α : Type} (p t : List α) : (p ++ t).take p.length = p := by
  induction p with
  | nil => simp
  | cons a as ih => simp [ih]

theorem dropLenAppend {α : Type} (p t : List α) : (p ++ t).drop p.length = t := by
  induction p with
  | nil => simp
  | cons a as ih => simp [ih]

theorem lastD_concat {α : Type} (l : List α) (a b : α) : (l ++ [a]).getLastD b = a := by
  induction l with
  | nil => rfl
  | cons c cs ih =>
    cases cs with
    | nil => rfl
    | cons d ds => simp [List.getLastD, ih]

theorem getLastD_mem {α : Type} {l : List α} (h : l ≠ []) (a : α) : l.getLastD a ∈ l := by
  induction l with
  | nil => exact absurd rfl h
  | cons c cs ih =>
    cases cs with
    | nil => simp [List.getLastD]
    | cons d ds =>
      have : (d :: ds).getLastD a ∈ d :: ds := ih (by simp)
      simp only [List.getLastD]
      exact List.mem_cons_of_mem c this

/-! ### Lemmas about the separator split -/

theorem containsSep_cons (c : Char) (rest : Name) :
    containsSep (c :: rest) = (startsWithL SEP (c :: rest) || containsSep rest) := by
  by_cases h : startsWithL SEP (c :: rest) = true <;> simp [containsSep, h]

theorem containsSep_eq_breakSep (s : Name) : containsSep s = (breakSep s).isSome := by
  induction s with
  | nil => rfl
  | cons c rest ih =>
    by_cases h : startsWithL SEP (c :: rest) = true
    · simp [containsSep, breakSep, h]
    · simp only [containsSep, breakSep, h, if_false, ite_false]
      cases hb : breakSep rest <;> simp [hb, ih.symm, containsSep] at * <;> simp_all

theorem breakSep_some_decomp {s pre post : Name}
    (h : breakSep s = some (pre, post)) : s = pre ++ SEP ++ post := by
  induction s generalizing pre post with
  | nil => simp [breakSep] at h
  | cons c rest ih =>
    by_cases hs : startsWithL SEP (c :: rest) = true
    · simp only [breakSep, hs, if_true, Option.some.injEq, Prod.mk.injEq] at h
      obtain ⟨rfl, rfl⟩ := h
      obtain ⟨t, ht⟩ := (startsWithL_iff SEP (c :: rest)).1 hs
      have hdrop : (c :: rest).drop 3 = t := by
        rw [ht]; exact dropLenAppend SEP t
      have : rest.drop 2 = t := hdrop
      rw [this, List.nil_append, ht]
    · simp only [breakSep, hs, if_false, ite_false] at h
      cases hb : breakSep rest with
      | none => rw [hb] at h; cases h
      | some pp =>
        obtain ⟨pre', post'⟩ := pp
        rw [hb] at h
        simp only [Option.some.injEq, Prod.mk.injEq] at h
        obtain ⟨rfl, rfl⟩ := h
        have := ih hb
        simp [this, List.append_assoc]

theorem startsWithL_append_right {α : Type} [DecidableEq α] {p l : List α} (t : List α)
    (h : startsWithL p l = true) : startsWithL p (l ++ t) = true := by
  obtain ⟨u, rfl⟩ := (startsWithL_iff p l).1 h
  exact (startsWithL_iff p _).2 ⟨u ++ t, by simp⟩

theorem breakSep_some_pre {s pre post : Name}
    (h : breakSep s = some (pre, post)) : breakSep pre = none := by
  induction s generalizing pre post with
  | nil => simp [breakSep] at h
  | cons c rest ih =>
    by_cases hs : startsWithL SEP (c :: rest) = true
    · simp only [breakSep, hs, if_true, Option.some.injEq, Prod.mk.injEq] at h
      obtain ⟨rfl, -⟩ := h
      rfl
    · simp only [breakSep, hs, if_false, ite_false] at h
      cases hb : breakSep rest with
      | none => rw [hb] at h; cases h
      | some pp =>
        obtain ⟨pre', post'⟩ := pp
        rw [hb] at h
        simp only [Option.some.injEq, Prod.mk.injEq] at h
        obtain ⟨rfl, rfl⟩ := h
        have hpre' : breakSep pre' = none := ih hb
        have hdec := breakSep_some_decomp hb
        have hns : startsWithL SEP (c :: pre') = false := by
          by_contra hcon
          rw [Bool.not_eq_false] at hcon
          have h2 : startsWithL SEP ((c :: pre') ++ (SEP ++ post)) = true :=
            startsWithL_append_right _ hcon
          rw [show (c :: pre') ++ (SEP ++ post) = c :: (pre' ++ SEP ++ post) by simp] at h2
          rw [← hdec] at h2
          exact absurd h2 (by simpa using hs)
        simp [breakSep, hns, hpre']

theorem containsSep_iff (s : Name) :
    containsSep s = true ↔ ∃ a b, s = a ++ SEP ++ b := by
  constructor
  · intro h
    rw [containsSep_eq_breakSep] at h
    cases hb : breakSep s with
    | none => rw [hb] at h; cases h
    | some pp => exact ⟨pp.1, pp.2, by simpa using breakSep_some_decomp (hb.trans (by simp))⟩
  · rintro ⟨a, b, rfl⟩
    induction a with
    | nil =>
      show containsSep ('_' :: '_' :: '_' :: b) = true
      rw [containsSep_cons]
      have : startsWithL SEP ('_' :: '_' :: '_' :: b) = true :=
        (startsWithL_iff SEP _).2 ⟨b, rfl⟩
      simp [this]
    | cons c a' ih =>
      rw [show (c :: a') ++ SEP ++ b = c :: (a' ++ SEP ++ b) by simp, containsSep_cons, ih]
      simp

theorem containsSep_take {s : Name} (h : containsSep s = false) (k : Nat) :
    containsSep (s.take k) = false := by
  by_contra hc
  rw [Bool.not_eq_false, containsSep_iff] at hc
  obtain ⟨a, b, hab⟩ := hc
  have : s = a ++ SEP ++ (b ++ s.drop k) := by
    conv_lhs => rw [← List.take_append_drop k s]
    rw [hab]; simp
  rw [Bool.eq_false_iff] at h
  exact h ((containsSep_iff s).2 ⟨a, b ++ s.drop k, this⟩)

theorem containsSep_stem {n : Name} (h : containsSep n = false) :
    containsSep (stemOfName n) = false := by
  unfold stemOfName
  by_cases hmd : n = mdSuffix
  · simp only [hmd, if_true, ite_true]
    exact hmd ▸ h
  · simp only [hmd, if_false, ite_false]
    exact containsSep_take h _

theorem breakSep_post_lt {s pre post : Name}
    (h : breakSep s = some (pre, post)) : post.length < s.length := by
  have := breakSep_some_decomp h
  rw [this]
  simp only [List.length_append]
  have : SEP.length = 3 := rfl
  omega

theorem splitSepF_congr : ∀ (f1 f2 : Nat) (s : Name), s.length ≤ f1 → s.length ≤ f2 →
    splitSepF f1 s = splitSepF f2 s := by
  intro f1
  induction f1 with
  | zero =>
    intro f2 s h1 h2
    have : s = [] := List.eq_nil_of_length_eq_zero (by omega)
    subst this
    cases f2 with
    | zero => rfl
    | succ f2' => simp [splitSepF, breakSep]
  | succ f1' ih =>
    intro f2 s h1 h2
    cases f2 with
    | zero =>
      have : s = [] := List.eq_nil_of_length_eq_zero (by omega)
      subst this
      simp [splitSepF, breakSep]
    | succ f2' =>
      simp only [splitSepF]
      cases hb : breakSep s with
      | none => rfl
      | some pp =>
        obtain ⟨pre, post⟩ := pp
        have hlt : post.length < s.length := breakSep_post_lt hb
        show pre :: splitSepF f1' post = pre :: splitSepF f2' post
        rw [ih f2' post (by omega) (by omega)]

theorem splitSep_eq (s : Name) :
    splitSep s = match breakSep s with
      | none => [s]
      | some (pre, post) => pre :: splitSep post := by
  unfold splitSep
  cases hn : s.length with
  | zero =>
    have : s = [] := List.eq_nil_of_length_eq_zero hn
    subst this
    simp [splitSepF, breakSep]
  | succ k =>
    simp only [splitSepF]
    cases hb : breakSep s with
    | none => rfl
    | some pp =>
      obtain ⟨pre, post⟩ := pp
      have hlt : post.length < s.length := breakSep_post_lt hb
      show pre :: splitSepF k post = pre :: splitSep post
      unfold splitSep
      rw [splitSepF_congr k post.length post (by omega) (by omega)]

theorem splitSep_ne_nil (s : Name) : splitSep s ≠ [] := by
  rw [splitSep_eq]
  cases hb : breakSep s <;> simp

theorem splitSep_chunks_aux : ∀ (n : Nat) (s : Name), s.length ≤ n →
    ∀ c ∈ splitSep s, containsSep c = false := by
  intro n
  induction n with
  | zero =>
    intro s hs c hc
    have : s = [] := List.eq_nil_of_length_eq_zero (by omega)
    subst this
    rw [splitSep_eq] at hc
    simp only [breakSep] at hc
    simp at hc
    simp [hc, containsSep]
  | succ n' ih =>
    intro s hs c hc
    rw [splitSep_eq] at hc
    cases hb : breakSep s with
    | none =>
      rw [hb] at hc
      simp at hc
      subst hc
      rw [containsSep_eq_breakSep, hb]
      rfl
    | some pp =>
      obtain ⟨pre, post⟩ := pp
      rw [hb] at hc
      simp only [List.mem_cons] at hc
      rcases hc with rfl | hc
      · rw [containsSep_eq_breakSep, breakSep_some_pre hb]
        rfl
      · have hlt : post.length < s.length := breakSep_post_lt hb
        exact ih post (by omega) c hc

/-- Every chunk produced by `splitSep` is free of the separator. -/
theorem splitSep_chunks (s : Name) : ∀ c ∈ splitSep s, containsSep c = false :=
  splitSep_chunks_aux s.length s (Nat.le_refl _)

theorem joinSep_cons (c : Name) {rest : List Name} (h : rest ≠ []) :
    joinSep (c :: rest) = c ++ SEP ++ joinSep rest := by
  cases rest with
  | nil => exact absurd rfl h
  | cons c' rest' => rfl

theorem joinSep_splitSep_aux : ∀ (n : Nat) (s : Name), s.length ≤ n →
    joinSep (splitSep s) = s := by
  intro n
  induction n with
  | zero =>
    intro s hs
    have : s = [] := List.eq_nil_of_length_eq_zero (by omega)
    subst this
    rw [splitSep_eq]
    rfl
  | succ n' ih =>
    intro s hs
    rw [splitSep_eq]
    cases hb : breakSep s with
    | none => rfl
    | some pp =>
      obtain ⟨pre, post⟩ := pp
      have hlt : post.length < s.length := breakSep_post_lt hb
      rw [joinSep_cons pre (splitSep_ne_nil post), ih post (by omega),
        breakSep_some_decomp hb]

/-- Joining the chunks of `splitSep` with the separator reconstructs the
original string (order and content are preserved). -/
theorem joinSep_splitSep (s : Name) : joinSep (splitSep s) = s :=
  joinSep_splitSep_aux s.length s (Nat.le_refl _)

/-! ### Basic filesystem lemmas -/

theorem pathExists_iff (fs : FS) (p : FPath) :
    fs.pathExists p = true ↔ ∃ e ∈ fs.entries, e.path = p := by
  simp [FS.pathExists, List.any_eq_true]

theorem isDir_iff (fs : FS) (p : FPath) :
    fs.isDir p = true ↔ ∃ e ∈ fs.entries, e.path = p ∧ e.kind = NodeKind.dir := by
  simp [FS.isDir, List.any_eq_true]

theorem isDir_append (l ds : List Entry) (p : FPath)
    (h : FS.isDir ⟨l⟩ p = true) : FS.isDir ⟨l ++ ds⟩ p = true := by
  rw [isDir_iff] at h ⊢
  obtain ⟨e, he, hp⟩ := h
  exact ⟨e, List.mem_append_left _ he, hp⟩

theorem pjoin_cases (p : FPath) (n : Name) :
    pjoin p n = p ∨
      (pjoin p n = p ++ [n] ∧ lastName (pjoin p n) = n ∧
        (pjoin p n).length = p.length + 1) := by
  by_cases h : n = [] ∨ n = dotName
  · left
    simp [pjoin, h]
  · right
    have hp : pjoin p n = p ++ [n] := by simp [pjoin, h]
    refine ⟨hp, ?_, ?_⟩
    · rw [hp]
      exact lastD_concat p n []
    · rw [hp]
      simp

theorem startsWithL_pjoin (p : FPath) (n : Name) :
    startsWithL p (pjoin p n) = true := by
  rcases pjoin_cases p n with h | ⟨h, -, -⟩
  · rw [h]; exact startsWithL_self p
  · rw [h]; exact (startsWithL_iff p _).2 ⟨[n], rfl⟩

theorem startsWithL_trans {α : Type} [DecidableEq α] {p q r : List α}
    (h1 : startsWithL p q = true) (h2 : startsWithL q r = true) :
    startsWithL p r = true := by
  obtain ⟨t1, rfl⟩ := (startsWithL_iff p q).1 h1
  obtain ⟨t2, rfl⟩ := (startsWithL_iff _ _).1 h2
  exact (startsWithL_iff p _).2 ⟨t1 ++ t2, by simp⟩

theorem pjoin_length (p : FPath) (n : Name) : p.length ≤ (pjoin p n).length := by
  rcases pjoin_cases p n with h | ⟨-, -, h⟩
  · rw [h]
  · omega

/-! ### Lemmas about the folder-creation loop -/



/-- Dissection of a successful `mkdirs` run: the final folder is the
`pjoin`-fold of the parts, and the filesystem only grew by directory
entries, each sitting under the start folder and named after a part. -/
theorem mkdirs_ok_spec (parts : List Name) : ∀ (fs fs1 : FS) (q folder : FPath),
    mkdirs fs q parts = MkdirsResult.ok fs1 folder →
    startsWithL q folder = true ∧ folder = parts.foldl pjoin q ∧
    ∃ ds, fs1.entries = fs.entries ++ ds ∧
      ∀ x ∈ ds, x.kind = NodeKind.dir ∧ startsWithL q x.path = true ∧
        (x.path = q ∨ ∃ part ∈ parts, lastName x.path = part ∧ q.length < x.path.length) := by
  induction parts with
  | nil =>
    intro fs fs1 q folder h
    simp only [mkdirs, MkdirsResult.ok.injEq] at h
    obtain ⟨rfl, rfl⟩ := h
    refine ⟨startsWithL_self q, rfl, [], by simp, ?_⟩
    intro x hx
    simp at hx
  | cons part rest ih =>
    intro fs fs1 q folder h
    simp only [mkdirs] at h
    by_cases hd : fs.isDir (pjoin q part) = true
    · rw [if_pos hd] at h
      obtain ⟨hsw, hfold, ds, hds, hall⟩ := ih fs fs1 (pjoin q part) folder h
      refine ⟨startsWithL_trans (startsWithL_pjoin q part) hsw, by simpa using hfold,
        ds, hds, ?_⟩
      intro x hx
      obtain ⟨hk, hsw', hor⟩ := hall x hx
      refine ⟨hk, startsWithL_trans (startsWithL_pjoin q part) hsw', ?_⟩
      rcases hor with hq | ⟨part', hpart', hlast, hlen⟩
      · rcases pjoin_cases q part with hj | ⟨hj, hl, hlen⟩
        · exact Or.inl (hq.trans hj)
        · refine Or.inr ⟨part, List.mem_cons_self _ _, ?_, ?_⟩
          · rw [hq, hl]
          · rw [hq]; omega
      · refine Or.inr ⟨part', List.mem_cons_of_mem _ hpart', hlast, ?_⟩
        have := pjoin_length q part
        omega
    · rw [if_neg hd] at h
      by_cases he : fs.pathExists (pjoin q part) = true
      · rw [if_pos he] at h
        cases h
      · rw [if_neg he] at h
        obtain ⟨hsw, hfold, ds, hds, hall⟩ := ih _ fs1 (pjoin q part) folder h
        refine ⟨startsWithL_trans (startsWithL_pjoin q part) hsw, by simpa using hfold,
          ⟨pjoin q part, NodeKind.dir, 0⟩ :: ds, ?_, ?_⟩
        · rw [hds]; simp [FS.addDir]
        · intro x hx
          rcases List.mem_cons.1 hx with rfl | hx'
          · refine ⟨rfl, startsWithL_pjoin q part, ?_⟩
            rcases pjoin_cases q part with hj | ⟨-, hl, hlen⟩
            · exact Or.inl hj
            · exact Or.inr ⟨part, List.mem_cons_self _ _, hl, by
                show q.length < (pjoin q part).length
                omega⟩
          · obtain ⟨hk, hsw', hor⟩ := hall x hx'
            refine ⟨hk, startsWithL_trans (startsWithL_pjoin q part) hsw', ?_⟩
            rcases hor with hq | ⟨part', hpart', hlast, hlen⟩
            · rcases pjoin_cases q part with hj | ⟨hj, hl, hlen⟩
              · exact Or.inl (hq.trans hj)
              · refine Or.inr ⟨part, List.mem_cons_self _ _, ?_, ?_⟩
                · rw [hq, hl]
                · rw [hq]; omega
            · refine Or.inr ⟨part', List.mem_cons_of_mem _ hpart', hlast, ?_⟩
              have := pjoin_length q part
              omega

/-- A failing `mkdirs` run also only ever added directory entries. -/
theorem mkdirs_failed_spec (parts : List Name) : ∀ (fs fs1 : FS) (q p : FPath),
    mkdirs fs q parts = MkdirsResult.failed fs1 p →
    ∃ ds, fs1.entries = fs.entries ++ ds ∧ ∀ x ∈ ds, x.kind = NodeKind.dir := by
  induction parts with
  | nil =>
    intro fs fs1 q p h
    simp [mkdirs] at h
  | cons part rest ih =>
    intro fs fs1 q p h
    simp only [mkdirs] at h
    by_cases hd : fs.isDir (pjoin q part) = true
    · rw [if_pos hd] at h
      exact ih fs fs1 _ p h
    · rw [if_neg hd] at h
      by_cases he : fs.pathExists (pjoin q part) = true
      · rw [if_pos he] at h
        injection h with h1 h2
        subst h1
        exact ⟨[], by simp, by simp⟩
      · rw [if_neg he] at h
        obtain ⟨ds, hds, hall⟩ := ih _ fs1 _ p h
        refine ⟨⟨pjoin q part, NodeKind.dir, 0⟩ :: ds, ?_, ?_⟩
        · rw [hds]; simp [FS.addDir]
        · intro x hx
          rcases List.mem_cons.1 hx with rfl | hx'
          · rfl
          · exact hall x hx'

/-- After a successful `mkdirs` run, every folder on the visited chain
is a directory. -/
theorem mkdirs_ok_isDir (parts : List Name) : ∀ (fs fs1 : FS) (q folder : FPath),
    mkdirs fs q parts = MkdirsResult.ok fs1 folder →
    ∀ r ∈ folderChain q parts, fs1.isDir r = true := by
  induction parts with
  | nil =>
    intro fs fs1 q folder _ r hr
    simp [folderChain] at hr
  | cons part rest ih =>
    intro fs fs1 q folder h r hr
    simp only [mkdirs] at h
    simp only [folderChain, List.mem_cons] at hr
    by_cases hd : fs.isDir (pjoin q part) = true
    · rw [if_pos hd] at h
      rcases hr with rfl | hr'
      · obtain ⟨-, -, ds, hds, -⟩ := mkdirs_ok_spec rest fs fs1 _ folder h
        have : fs1 = ⟨fs.entries ++ ds⟩ := by cases fs1; simpa using hds
        rw [this]
        exact isDir_append _ _ _ hd
      · exact ih fs fs1 _ folder h r hr'
    · rw [if_neg hd] at h
      by_cases he : fs.pathExists (pjoin q part) = true
      · rw [if_pos he] at h
        cases h
      · rw [if_neg he] at h
        rcases hr with rfl | hr'
        · obtain ⟨-, -, ds, hds, -⟩ := mkdirs_ok_spec rest _ fs1 _ folder h
          have hd0 : FS.isDir (fs.addDir (pjoin q part)) (pjoin q part) = true := by
            rw [isDir_iff]
            exact ⟨⟨pjoin q part, NodeKind.dir, 0⟩, by simp [FS.addDir], rfl, rfl⟩
          have hfs1 : fs1 = ⟨(fs.addDir (pjoin q part)).entries ++ ds⟩ := by
            cases fs1; simpa using hds
          rw [hfs1]
          have h2 := isDir_append (fs.addDir (pjoin q part)).entries ds (pjoin q part) hd0
          simpa using h2
        · exact ih _ fs1 _ folder h r hr'

/-! ### Dissection lemmas for the per-file conversion -/





theorem isTopMd_parts {d p : FPath} (h : isTopMd d p = true) :
    p.length = d.length + 1 ∧ startsWithL d p = true ∧ endsMd (lastName p) = true := by
  unfold isTopMd at h
  simp only [Bool.and_eq_true, decide_eq_true_eq] at h
  exact ⟨h.1.1, h.1.2, h.2⟩

theorem processEntry_ok_cases {d : FPath} {st st' : Step} {src : FPath}
    (h : processEntry d st src = Except.ok st') :
    (containsSep (stemOfName (lastName src)) = false ∧ st' = st) ∨
    (containsSep (stemOfName (lastName src)) = true ∧
      ∃ fs1 folder,
        mkdirs st.fs d (partsOf src).dropLast = MkdirsResult.ok fs1 folder ∧
        fs1.moveFile src (dstOf folder src) = Except.ok st'.fs ∧
        st'.printed = st.printed ++ [convertingLine src (dstOf folder src) d] ∧
        st'.count = st.count + 1) := by
  simp only [processEntry] at h
  split at h
  · rename_i hc
    split at h
    · cases h
    · rename_i fs1 folder hm
      split at h
      · cases h
      · rename_i fs2 hmv
        injection h with h'
        subst h'
        exact Or.inr ⟨hc, fs1, folder, hm, hmv, rfl, rfl⟩
  · rename_i hc
    injection h with h'
    exact Or.inl ⟨by simpa using hc, h'.symm⟩

theorem processEntry_error_cases {d : FPath} {st : Step} {src : FPath} {c : ConvCrash}
    (h : processEntry d st src = Except.error c) :
    containsSep (stemOfName (lastName src)) = true ∧
    ((∃ p, mkdirs st.fs d (partsOf src).dropLast = MkdirsResult.failed c.fs p ∧
        c.err = ConvErr.mkdirFailed p ∧ c.printed = st.printed) ∨
     (∃ folder, mkdirs st.fs d (partsOf src).dropLast = MkdirsResult.ok c.fs folder ∧
        c.fs.moveFile src (dstOf folder src) = Except.error c.err ∧
        c.printed = st.printed ++ [convertingLine src (dstOf folder src) d])) := by
  simp only [processEntry] at h
  split at h
  · rename_i hc
    refine ⟨hc, ?_⟩
    split at h
    · rename_i fs1 p hm
      injection h with h'
      rw [← h']
      exact Or.inl ⟨p, hm, rfl, rfl⟩
    · rename_i fs1 folder hm
      split at h
      · rename_i e hmv
        injection h with h'
        rw [← h']
        exact Or.inr ⟨folder, hm, hmv, rfl⟩
      · cases h
  · cases h

theorem moveFile_ok_cases {fs : FS} {src dst : FPath} {fs2 : FS}
    (h : fs.moveFile src dst = Except.ok fs2) :
    (fs.isDir dst = true ∧ fs2 = fs.rename src (dst ++ [lastName src])) ∨
    (fs.isDir dst = false ∧ fs2 = fs.rename src dst) := by
  unfold FS.moveFile at h
  by_cases hd : fs.isDir dst = true
  · simp only [hd, if_true, ite_true, true_and] at h
    by_cases he : fs.pathExists (dst ++ [lastName src]) = true
    · rw [if_pos he] at h
      cases h
    · rw [if_neg he] at h
      by_cases hs : fs.pathExists src = false
      · rw [if_pos hs] at h; cases h
      · rw [if_neg hs] at h
        injection h with h'
        exact Or.inl ⟨hd, h'.symm⟩
  · simp only [hd, if_false, ite_false, false_and] at h
    by_cases hs : fs.pathExists src = false
    · rw [if_pos hs] at h; cases h
    · rw [if_neg hs] at h
      injection h with h'
      exact Or.inr ⟨Bool.eq_false_iff.2 hd, h'.symm⟩

theorem rename_mem {fs : FS} {src dst : FPath} {x : Entry}
    (hx : x ∈ (fs.rename src dst).entries) :
    ∃ e ∈ fs.entries,
      (startsWithL src e.path = true ∧
        x = { e with path := dst ++ e.path.drop src.length }) ∨
      (startsWithL src e.path = false ∧ e.path ≠ dst ∧ x = e) := by
  unfold FS.rename at hx
  simp only [List.mem_filterMap] at hx
  obtain ⟨e, he, hfe⟩ := hx
  refine ⟨e, he, ?_⟩
  by_cases hsw : startsWithL src e.path = true
  · rw [if_pos hsw] at hfe
    injection hfe with h'
    exact Or.inl ⟨hsw, h'.symm⟩
  · rw [if_neg hsw] at hfe
    by_cases hdst : e.path = dst
    · rw [if_pos hdst] at hfe
      cases hfe
    · rw [if_neg hdst] at hfe
      injection hfe with h'
      exact Or.inr ⟨Bool.eq_false_iff.2 hsw, hdst, h'.symm⟩

theorem rename_mem_of {fs : FS} {src dst : FPath} {e : Entry} (he : e ∈ fs.entries)
    (h1 : startsWithL src e.path = false) (h2 : e.path ≠ dst) :
    e ∈ (fs.rename src dst).entries := by
  unfold FS.rename
  simp only [List.mem_filterMap]
  exact ⟨e, he, by simp [h1, h2]⟩

theorem mdSuffix_length : mdSuffix.length = 3 := rfl

theorem dst_name_facts (folder : FPath) (lp : Name) :
    lastName (pjoin folder (lp ++ mdSuffix)) = lp ++ mdSuffix ∧
    (pjoin folder (lp ++ mdSuffix)).length = folder.length + 1 := by
  have h1 : lp ++ mdSuffix ≠ [] := by
    intro h
    have h2 := congrArg List.length h
    rw [List.length_append, mdSuffix_length] at h2
    simp at h2
  have h2 : lp ++ mdSuffix ≠ dotName := by
    intro h
    have h3 := congrArg List.length h
    rw [List.length_append, mdSuffix_length,
      show dotName.length = 1 from rfl] at h3
    omega
  have hne : ¬(lp ++ mdSuffix = [] ∨ lp ++ mdSuffix = dotName) := by
    rintro (h | h)
    · exact h1 h
    · exact h2 h
  have hp : pjoin folder (lp ++ mdSuffix) = folder ++ [lp ++ mdSuffix] := by
    unfold pjoin
    rw [if_neg hne]
  constructor
  · rw [hp]
    exact lastD_concat folder _ []
  · rw [hp]
    simp

theorem stem_md_noSep {lp : Name} (hlp : containsSep lp = false) :
    containsSep (stemOfName (lp ++ mdSuffix)) = false := by
  unfold stemOfName
  by_cases hmd : lp ++ mdSuffix = mdSuffix
  · rw [if_pos hmd]
    rw [hmd]
    decide
  · rw [if_neg hmd]
    have hidx : (lp ++ mdSuffix).length - 3 = lp.length := by
      simp [mdSuffix_length]
    rw [hidx, takeLenAppend]
    exact hlp

theorem lastPart_noSep (src : FPath) : containsSep ((partsOf src).getLastD []) = false :=
  splitSep_chunks _ _ (getLastD_mem (splitSep_ne_nil _) [])

/-- Processing one globbed candidate never leaves behind, at the top
level of `d`, a `*.md` entry whose stem still contains the separator:
any such survivor was already present before the step and does not sit
at the processed candidate's path. -/
theorem processEntry_ok_topSep {d : FPath} {st st' : Step} {src : FPath}
    (h : processEntry d st src = Except.ok st') :
    ∀ x ∈ st'.fs.entries,
      isTopMd d x.path = true → containsSep (stemOfName (lastName x.path)) = true →
      x ∈ st.fs.entries ∧ x.path ≠ src := by
  intro x hx htop hsep
  obtain ⟨hxlen, hxsw, hxmd⟩ := isTopMd_parts htop
  rcases processEntry_ok_cases h with ⟨hc, rfl⟩ | ⟨hc, fs1, folder, hm, hmv, hpr, hcnt⟩
  · refine ⟨hx, ?_⟩
    intro hps
    rw [hps] at hsep
    rw [hsep] at hc
    cases hc
  · obtain ⟨hfsw, hfold, ds, hds, hall⟩ := mkdirs_ok_spec _ _ _ _ _ hm
    have hfl : d.length ≤ folder.length := startsWithL_length hfsw
    obtain ⟨hdstname, hdstlen⟩ := dst_name_facts folder ((partsOf src).getLastD [])
    have hdststem : containsSep (stemOfName (lastName (dstOf folder src))) = false := by
      rw [show lastName (dstOf folder src) = (partsOf src).getLastD [] ++ mdSuffix from hdstname]
      exact stem_md_noSep (lastPart_noSep src)
    rcases moveFile_ok_cases hmv with ⟨hdir, hren⟩ | ⟨hdir, hren⟩
    · -- moved inside an existing directory at the destination
      rw [hren] at hx
      obtain ⟨e, he, hcase⟩ := rename_mem hx
      rcases hcase with ⟨hsw, rfl⟩ | ⟨hsw, hnd, rfl⟩
      · exfalso
        have ha : ((dstOf folder src ++ [lastName src]) ++ e.path.drop src.length).length
            = d.length + 1 := hxlen
        simp only [List.length_append, List.length_cons, List.length_nil] at ha
        have hb : (dstOf folder src).length = folder.length + 1 := hdstlen
        omega
      · rw [hds] at he
        rcases List.mem_append.1 he with he' | he'
        · refine ⟨he', ?_⟩
          intro hps
          rw [hps] at hsw
          rw [startsWithL_self src] at hsw
          cases hsw
        · exfalso
          obtain ⟨hk, hswd, hor⟩ := hall x he'
          rcases hor with hq | ⟨part, hpart, hlast, hplen⟩
          · rw [hq] at hxlen
            omega
          · rw [hlast] at hsep
            rw [containsSep_stem (splitSep_chunks _ _ (List.mem_of_mem_dropLast hpart))] at hsep
            cases hsep
    · -- plain rename onto the destination path
      rw [hren] at hx
      obtain ⟨e, he, hcase⟩ := rename_mem hx
      rcases hcase with ⟨hsw, rfl⟩ | ⟨hsw, hnd, rfl⟩
      · exfalso
        cases htail : e.path.drop src.length with
        | nil =>
          rw [htail] at hsep hxlen
          simp only [List.append_nil] at hsep hxlen
          rw [hdststem] at hsep
          cases hsep
        | cons t0 ts =>
          rw [htail] at hxlen
          simp only [List.length_append, List.length_cons] at hxlen
          have hb : (dstOf folder src).length = folder.length + 1 := hdstlen
          omega
      · rw [hds] at he
        rcases List.mem_append.1 he with he' | he'
        · refine ⟨he', ?_⟩
          intro hps
          rw [hps] at hsw
          rw [startsWithL_self src] at hsw
          cases hsw
        · exfalso
          obtain ⟨hk, hswd, hor⟩ := hall x he'
          rcases hor with hq | ⟨part, hpart, hlast, hplen⟩
          · rw [hq] at hxlen
            omega
          · rw [hlast] at hsep
            rw [containsSep_stem (splitSep_chunks _ _ (List.mem_of_mem_dropLast hpart))] at hsep
            cases hsep

/-! ### Lemmas about the whole conversion loop -/

theorem runFiles_ok_topSep {d : FPath} (files : List FPath) :
    ∀ {st st' : Step}, runFiles d st files = Except.ok st' →
    ∀ x ∈ st'.fs.entries,
      isTopMd d x.path = true → containsSep (stemOfName (lastName x.path)) = true →
      x ∈ st.fs.entries ∧ ∀ src ∈ files, x.path ≠ src := by
  induction files with
  | nil =>
    intro st st' h x hx htop hsep
    simp only [runFiles] at h
    injection h with h'
    subst h'
    refine ⟨hx, ?_⟩
    intro src hsrc
    simp at hsrc
  | cons src rest ih =>
    intro st st' h x hx htop hsep
    simp only [runFiles] at h
    cases hp : processEntry d st src with
    | error c => rw [hp] at h; cases h
    | ok st1 =>
      rw [hp] at h
      obtain ⟨hx1, hrest⟩ := ih h x hx htop hsep
      obtain ⟨hx0, hne⟩ := processEntry_ok_topSep hp x hx1 htop hsep
      refine ⟨hx0, ?_⟩
      intro src' hsrc'
      rcases List.mem_cons.1 hsrc' with rfl | hsrc''
      · exact hne
      · exact hrest src' hsrc''

/-- An entry whose path is no longer than the target directory's is
untouched by processing one candidate of that directory. -/
theorem processEntry_keeps_shallow {d : FPath} {st st' : Step} {src : FPath} {e : Entry}
    (hlen : src.length = d.length + 1)
    (h : processEntry d st src = Except.ok st')
    (he : e ∈ st.fs.entries) (hsh : e.path.length ≤ d.length) :
    e ∈ st'.fs.entries := by
  rcases processEntry_ok_cases h with ⟨-, rfl⟩ | ⟨-, fs1, folder, hm, hmv, -, -⟩
  · exact he
  · obtain ⟨hfsw, -, ds, hds, -⟩ := mkdirs_ok_spec _ _ _ _ _ hm
    have hfl : d.length ≤ folder.length := startsWithL_length hfsw
    obtain ⟨-, hdstlen⟩ := dst_name_facts folder ((partsOf src).getLastD [])
    have hdl : (dstOf folder src).length = folder.length + 1 := hdstlen
    have he1 : e ∈ fs1.entries := by
      rw [hds]
      exact List.mem_append_left _ he
    have hsw : startsWithL src e.path = false := by
      by_contra hcon
      rw [Bool.not_eq_false] at hcon
      have := startsWithL_length hcon
      omega
    rcases moveFile_ok_cases hmv with ⟨-, hren⟩ | ⟨-, hren⟩
    · rw [hren]
      refine rename_mem_of he1 hsw ?_
      intro hcon
      have := congrArg List.length hcon
      simp only [List.length_append, List.length_cons, List.length_nil] at this
      omega
    · rw [hren]
      refine rename_mem_of he1 hsw ?_
      intro hcon
      have := congrArg List.length hcon
      omega

theorem runFiles_keeps_shallow {d : FPath} (files : List FPath) :
    ∀ {st st' : Step} {e : Entry},
    (∀ src ∈ files, src.length = d.length + 1) →
    runFiles d st files = Except.ok st' →
    e ∈ st.fs.entries → e.path.length ≤ d.length →
    e ∈ st'.fs.entries := by
  induction files with
  | nil =>
    intro st st' e _ h he _
    simp only [runFiles] at h
    injection h with h'
    subst h'
    exact he
  | cons src rest ih =>
    intro st st' e hlens h he hsh
    simp only [runFiles] at h
    cases hp : processEntry d st src with
    | error c => rw [hp] at h; cases h
    | ok st1 =>
      rw [hp] at h
      have he1 := processEntry_keeps_shallow (hlens src (List.mem_cons_self _ _)) hp he hsh
      exact ih (fun s hs => hlens s (List.mem_cons_of_mem _ hs)) h he1 hsh

/-- Candidates whose stem has no separator are all skipped: the loop is
the identity on them. -/
theorem runFiles_skipAll {d : FPath} (files : List FPath) :
    ∀ (st : Step), (∀ src ∈ files, containsSep (stemOfName (lastName src)) = false) →
    runFiles d st files = Except.ok st := by
  induction files with
  | nil =>
    intro st _
    rfl
  | cons src rest ih =>
    intro st hall
    have hskip : processEntry d st src = Except.ok st := by
      unfold processEntry
      rw [if_neg (by simp [hall src (List.mem_cons_self _ _)])]
    simp only [runFiles, hskip]
    exact ih st (fun s hs => hall s (List.mem_cons_of_mem _ hs))

theorem globMd_mem_of {fs : FS} {d : FPath} {e : Entry}
    (he : e ∈ fs.entries) (ht : isTopMd d e.path = true) : e.path ∈ fs.globMd d := by
  unfold FS.globMd
  exact List.mem_map_of_mem _ (List.mem_filter.2 ⟨he, ht⟩)

theorem globMd_elim {fs : FS} {d : FPath} {p : FPath} (hp : p ∈ fs.globMd d) :
    isTopMd d p = true ∧ ∃ e ∈ fs.entries, e.path = p := by
  unfold FS.globMd at hp
  obtain ⟨e, he, rfl⟩ := List.mem_map.1 hp
  obtain ⟨he', ht⟩ := List.mem_filter.1 he
  exact ⟨ht, e, he', rfl⟩

theorem convert_ok_cases {fs : FS} {d : FPath} {r : ConvOk}
    (h : convert_namespace_to_folders fs d = Except.ok r) :
    (fs.pathExists d = false ∧ r = ⟨fs, [dirMissingLine d], false⟩) ∨
    (fs.pathExists d = true ∧ ∃ st, runFiles d ⟨fs, [], 0⟩ (fs.globMd d) = Except.ok st ∧
      r = ⟨st.fs, st.printed ++ [summaryLine st.count], true⟩) := by
  unfold convert_namespace_to_folders at h
  by_cases hd : fs.pathExists d = true
  · rw [if_pos hd] at h
    cases hr : runFiles d ⟨fs, [], 0⟩ (fs.globMd d) with
    | error c => rw [hr] at h; cases h
    | ok st =>
      rw [hr] at h
      injection h with h'
      exact Or.inr ⟨hd, st, rfl, h'.symm⟩
  · rw [if_neg hd] at h
    injection h with h'
    exact Or.inl ⟨Bool.eq_false_iff.2 hd, h'.symm⟩

/-- After a successful `True`-returning run, no top-level `*.md` entry
of the target directory has a separator left in its stem. -/
theorem convert_ok_top_noSep {fs : FS} {d : FPath} {fs' : FS} {out : List String}
    (h : convert_namespace_to_folders fs d = Except.ok ⟨fs', out, true⟩) :
    ∀ x ∈ fs'.entries, isTopMd d x.path = true →
      containsSep (stemOfName (lastName x.path)) = false := by
  intro x hx htop
  rcases convert_ok_cases h with ⟨-, hr⟩ | ⟨hd, st, hrun, hr⟩
  · cases hr
  · injection hr with h1 h2 h3
    subst h1
    by_contra hcon
    rw [Bool.not_eq_false] at hcon
    obtain ⟨hx0, hall⟩ := runFiles_ok_topSep (fs.globMd d) hrun x hx htop hcon
    exact hall x.path (globMd_mem_of hx0 htop) rfl

/-- The target directory entry survives a successful run. -/
theorem convert_ok_keeps_dir {fs : FS} {d : FPath} {fs' : FS} {out : List String}
    (h : convert_namespace_to_folders fs d = Except.ok ⟨fs', out, true⟩) :
    fs'.pathExists d = true := by
  rcases convert_ok_cases h with ⟨-, hr⟩ | ⟨hd, st, hrun, hr⟩
  · cases hr
  · injection hr with h1 h2 h3
    subst h1
    obtain ⟨e, he, hep⟩ := (pathExists_iff fs d).1 hd
    have hlens : ∀ src ∈ fs.globMd d, src.length = d.length + 1 := by
      intro src hsrc
      exact (isTopMd_parts (globMd_elim hsrc).1).1
    have he' : e ∈ st.fs.entries :=
      runFiles_keeps_shallow (fs.globMd d) hlens hrun he (by rw [hep])
    exact (pathExists_iff _ d).2 ⟨e, he', hep⟩

/-- A second run immediately after a successful `True`-returning run
finds no convertible file: it changes nothing and reports zero
conversions. -/
theorem convert_ok_second_run {fs : FS} {d : FPath} {fs' : FS} {out : List String}
    (h : convert_namespace_to_folders fs d = Except.ok ⟨fs', out, true⟩) :
    convert_namespace_to_folders fs' d = Except.ok ⟨fs', [summaryLine 0], true⟩ := by
  have hskip : ∀ src ∈ fs'.globMd d, containsSep (stemOfName (lastName src)) = false := by
    intro src hsrc
    obtain ⟨ht, e, he, hep⟩ := globMd_elim hsrc
    have := convert_ok_top_noSep h e he (by rw [hep]; exact ht)
    rw [hep] at this
    exact this
  unfold convert_namespace_to_folders
  rw [if_pos (convert_ok_keeps_dir h)]
  rw [runFiles_skipAll (fs'.globMd d) ⟨fs', [], 0⟩ hskip]
  rfl

/-! ### Count and output bookkeeping -/

theorem processEntry_count_printed {d : FPath} {st st' : Step} {src : FPath}
    (h : processEntry d st src = Except.ok st') :
    st'.count + st.printed.length = st.count + st'.printed.length := by
  rcases processEntry_ok_cases h with ⟨-, rfl⟩ | ⟨-, fs1, folder, -, -, hpr, hcnt⟩
  · rfl
  · rw [hcnt, hpr]
    simp only [List.length_append, List.length_cons, List.length_nil]
    omega

theorem runFiles_count_printed {d : FPath} (files : List FPath) :
    ∀ {st st' : Step}, runFiles d st files = Except.ok st' →
    st'.count + st.printed.length = st.count + st'.printed.length := by
  induction files with
  | nil =>
    intro st st' h
    simp only [runFiles] at h
    injection h with h'
    subst h'
    rfl
  | cons src rest ih =>
    intro st st' h
    simp only [runFiles] at h
    cases hp : processEntry d st src with
    | error c => rw [hp] at h; cases h
    | ok st1 =>
      rw [hp] at h
      have h1 := processEntry_count_printed hp
      have h2 := ih h
      omega

/-! ### Preservation of skipped files -/



theorem processEntry_keeps_skipped {d : FPath} {st st' : Step} {src : FPath} {e : Entry}
    (hlen : src.length = d.length + 1)
    (h : processEntry d st src = Except.ok st')
    (he : e ∈ st.fs.entries)
    (helen : e.path.length = d.length + 1)
    (hesep : containsSep (stemOfName (lastName e.path)) = false)
    (hnocol : containsSep (stemOfName (lastName src)) = true → destPathOf d src ≠ e.path) :
    e ∈ st'.fs.entries := by
  rcases processEntry_ok_cases h with ⟨-, rfl⟩ | ⟨hc, fs1, folder, hm, hmv, -, -⟩
  · exact he
  · obtain ⟨hfsw, hfold, ds, hds, -⟩ := mkdirs_ok_spec _ _ _ _ _ hm
    have hfl : d.length ≤ folder.length := startsWithL_length hfsw
    obtain ⟨hdstname, hdstlen⟩ := dst_name_facts folder ((partsOf src).getLastD [])
    have hdl : (dstOf folder src).length = folder.length + 1 := hdstlen
    have hdeq : dstOf folder src = destPathOf d src := by
      unfold destPathOf
      rw [← hfold]
    have he1 : e ∈ fs1.entries := by
      rw [hds]
      exact List.mem_append_left _ he
    have hsw : startsWithL src e.path = false := by
      by_contra hcon
      rw [Bool.not_eq_false] at hcon
      obtain ⟨t, ht⟩ := (startsWithL_iff src e.path).1 hcon
      cases t with
      | cons t0 ts =>
        have hl := congrArg List.length ht
        simp only [List.length_append, List.length_cons] at hl
        omega
      | nil =>
        simp only [List.append_nil] at ht
        rw [← ht] at hc
        rw [hesep] at hc
        cases hc
    rcases moveFile_ok_cases hmv with ⟨-, hren⟩ | ⟨-, hren⟩
    · rw [hren]
      refine rename_mem_of he1 hsw ?_
      intro hcon
      have := congrArg List.length hcon
      simp only [List.length_append, List.length_cons, List.length_nil] at this
      omega
    · rw [hren]
      refine rename_mem_of he1 hsw ?_
      intro hcon
      rw [hdeq] at hcon
      exact hnocol hc hcon.symm

theorem runFiles_keeps_skipped {d : FPath} (files : List FPath) :
    ∀ {st st' : Step} {e : Entry},
    (∀ src ∈ files, src.length = d.length + 1) →
    runFiles d st files = Except.ok st' →
    e ∈ st.fs.entries → e.path.length = d.length + 1 →
    containsSep (stemOfName (lastName e.path)) = false →
    (∀ src ∈ files, containsSep (stemOfName (lastName src)) = true →
      destPathOf d src ≠ e.path) →
    e ∈ st'.fs.entries := by
  induction files with
  | nil =>
    intro st st' e _ h he _ _ _
    simp only [runFiles] at h
    injection h with h'
    subst h'
    exact he
  | cons src rest ih =>
    intro st st' e hlens h he helen hesep hnocol
    simp only [runFiles] at h
    cases hp : processEntry d st src with
    | error c => rw [hp] at h; cases h
    | ok st1 =>
      rw [hp] at h
      have he1 := processEntry_keeps_skipped (hlens src (List.mem_cons_self _ _)) hp he helen
        hesep (hnocol src (List.mem_cons_self _ _))
      exact ih (fun s hs => hlens s (List.mem_cons_of_mem _ hs)) h he1 helen hesep
        (fun s hs => hnocol s (List.mem_cons_of_mem _ hs))





/-! ### The claims -/

/-- C1 counterexample: with a regular file at `d/x` blocking the folder
needed by the first candidate `x___y.md`, the run raises an uncaught
`FileExistsError` and aborts: the second candidate `p___q.md` is a
globbed candidate yet is never converted (it still sits, untouched, in
the crash-state filesystem), and no per-file report-and-continue
happens — refuting that a folder-creation failure skips only that file. -/
theorem per_file_mkdir_error_aborts_batch_cex :
    convert_namespace_to_folders fsAbort dP = Except.error cAbort ∧
    (dP ++ ["p___q.md".data]) ∈ fsAbort.globMd dP ∧
    (⟨dP ++ ["p___q.md".data], NodeKind.file, 3⟩ : Entry) ∈ cAbort.fs.entries := by
  refine ⟨by rfl, by decide, by decide⟩

/-- C1 (amended): a folder-creation or file-move failure for one
candidate is an uncaught exception that aborts the whole run: the loop
returns that very crash whatever candidates remain (they are never
processed), and at the failing candidate the filesystem still holds
every prior entry — the failure only ever ADDED directories, it moved no
file. -/
theorem per_file_error_aborts_run (d : FPath) (st : Step) (src : FPath)
    (rest : List FPath) (c : ConvCrash)
    (h : processEntry d st src = Except.error c) :
    runFiles d st (src :: rest) = Except.error c ∧
    c.fs.entries.take st.fs.entries.length = st.fs.entries ∧
    (c.fs.entries.drop st.fs.entries.length).all
      (fun x => decide (x.kind = NodeKind.dir)) = true := by
  obtain ⟨-, hcase⟩ := processEntry_error_cases h
  have hds : ∃ ds, c.fs.entries = st.fs.entries ++ ds ∧
      ∀ x ∈ ds, x.kind = NodeKind.dir := by
    rcases hcase with ⟨p, hm, -, -⟩ | ⟨folder, hm, -, -⟩
    · exact mkdirs_failed_spec _ _ _ _ _ hm
    · obtain ⟨-, -, ds, hds', hall⟩ := mkdirs_ok_spec _ _ _ _ _ hm
      exact ⟨ds, hds', fun x hx => (hall x hx).1⟩
  obtain ⟨ds, hd1, hd2⟩ := hds
  refine ⟨?_, ?_, ?_⟩
  · simp only [runFiles, h]
  · rw [hd1, takeLenAppend]
  · rw [hd1, dropLenAppend, List.all_eq_true]
    intro x hx
    simp [hd2 x hx]

/-- Witness for C1 (amended), on the `fsAbort` run. -/
theorem per_file_error_aborts_run_witness :
    runFiles dP ⟨fsAbort, [], 0⟩ [dP ++ ["x___y.md".data], dP ++ ["p___q.md".data]] =
      Except.error cAbort ∧
    cAbort.fs.entries.take fsAbort.entries.length = fsAbort.entries ∧
    (cAbort.fs.entries.drop fsAbort.entries.length).all
      (fun x => decide (x.kind = NodeKind.dir)) = true :=
  per_file_error_aborts_run dP ⟨fsAbort, [], 0⟩ (dP ++ ["x___y.md".data])
    [dP ++ ["p___q.md".data]] cAbort (by rfl)

/-- C2 counterexample: the function returns a bare boolean, not a
`(success, converted_count)` pair: a run converting `0` files and a run
converting `2` files both return exactly `True`, and the differing
counts appear only on the printed summary line — so the return value
cannot carry the count. -/
theorem convert_return_value_lacks_count_cex :
    convert_namespace_to_folders fsOnlyDir dP =
      Except.ok ⟨fsOnlyDir, [summaryLine 0], true⟩ ∧
    convert_namespace_to_folders fsExamples dP =
      Except.ok ⟨fsExamplesAfter, examplesOut, true⟩ ∧
    (⟨fsOnlyDir, [summaryLine 0], true⟩ : ConvOk).ret =
      (⟨fsExamplesAfter, examplesOut, true⟩ : ConvOk).ret ∧
    summaryLine 0 ≠ summaryLine 2 := by
  refine ⟨by rfl, by rfl, rfl, by decide⟩

/-- C2 (amended): the converter returns only a success boolean — `True`
exactly when the existence check passed — and the converted count is
reported on the final printed summary line, not returned. -/
theorem convert_returns_bare_success_bool (fs : FS) (d : FPath) (r : ConvOk)
    (h : convert_namespace_to_folders fs d = Except.ok r) :
    r.ret = fs.pathExists d ∧
    (r.ret = true → r.printed.getLastD emptyStr = summaryLine (r.printed.length - 1)) := by
  rcases convert_ok_cases h with ⟨hd, rfl⟩ | ⟨hd, st, hrun, rfl⟩
  · refine ⟨hd.symm, ?_⟩
    intro hcon
    simp at hcon
  · refine ⟨hd.symm, ?_⟩
    intro _
    have hcp := runFiles_count_printed (fs.globMd d) hrun
    simp only [List.length_nil] at hcp
    show (st.printed ++ [summaryLine st.count]).getLastD emptyStr =
      summaryLine ((st.printed ++ [summaryLine st.count]).length - 1)
    rw [lastD_concat]
    congr 1
    simp only [List.length_append, List.length_cons, List.length_nil]
    omega

/-- Witness for C2 (amended), on the `fsExamples` run. -/
theorem convert_returns_bare_success_bool_witness :
    (⟨fsExamplesAfter, examplesOut, true⟩ : ConvOk).ret = fsExamples.pathExists dP ∧
    ((⟨fsExamplesAfter, examplesOut, true⟩ : ConvOk).ret = true →
      (⟨fsExamplesAfter, examplesOut, true⟩ : ConvOk).printed.getLastD emptyStr =
        summaryLine ((⟨fsExamplesAfter, examplesOut, true⟩ : ConvOk).printed.length - 1)) :=
  convert_returns_bare_success_bool fsExamples dP ⟨fsExamplesAfter, examplesOut, true⟩ (by rfl)

/-- C3 counterexample: the candidate `___x.md` has stem `___x`, which
contains the separator, but splitting that stem yields `["", "x"]` — its
first segment is the empty string, refuting that every segment of the
split is non-empty. -/
theorem split_segments_can_be_empty_cex :
    (dP ++ ["___x.md".data]) ∈ fsOverwrite.globMd dP ∧
    containsSep (stemOfName ("___x.md".data)) = true ∧
    splitSep (stemOfName ("___x.md".data)) = [[], "x".data] ∧
    ([] : Name) ∈ splitSep (stemOfName ("___x.md".data)) := by
  refine ⟨by decide, by rfl, by rfl, by decide⟩

/-- C3 (amended): splitting a stem on the separator yields a nonempty,
order-preserving list of segments — joining them back with the separator
reconstructs the stem, and no segment contains the separator — but a
segment may be the empty string (a leading, trailing or doubled
separator). -/
theorem splitSep_order_and_sep_free (s : Name) :
    splitSep s ≠ [] ∧ joinSep (splitSep s) = s ∧
    (splitSep s).all (fun c => !(containsSep c)) = true := by
  refine ⟨splitSep_ne_nil s, joinSep_splitSep s, ?_⟩
  rw [List.all_eq_true]
  intro c hc
  simp [splitSep_chunks s c hc]

/-- C4: a full run on a directory holding `foo___bar.md` and
`a___b___c.md` moves the first to `bar.md` inside subfolder `foo` of the
target directory and the second to `c.md` inside nested subfolders
`a/b`: every segment but the last becomes a nested folder, in order, and
the last segment plus `.md` becomes the destination file name. -/
theorem namespace_examples_convert :
    convert_namespace_to_folders fsExamples dP =
      Except.ok ⟨fsExamplesAfter, examplesOut, true⟩ := by
  rfl

/-- C5: after a fully successful run no top-level `*.md` entry of the
target directory has a separator left in its stem, so a second run
immediately after converts zero files: it leaves the filesystem
untouched and prints only the zero-count summary. -/
theorem second_run_converts_zero (fs : FS) (d : FPath) (fs' : FS) (out : List String)
    (h : convert_namespace_to_folders fs d = Except.ok ⟨fs', out, true⟩) :
    topSepFree fs' d = true ∧
    convert_namespace_to_folders fs' d = Except.ok ⟨fs', [summaryLine 0], true⟩ := by
  refine ⟨?_, convert_ok_second_run h⟩
  rw [topSepFree, List.all_eq_true]
  intro x hx
  by_cases ht : isTopMd d x.path = true
  · have hns := convert_ok_top_noSep h x hx ht
    simp [ht, hns]
  · simp [Bool.eq_false_iff.2 ht]

/-- Witness for C5, on the `fsExamples` run. -/
theorem second_run_converts_zero_witness :
    topSepFree fsExamplesAfter dP = true ∧
    convert_namespace_to_folders fsExamplesAfter dP =
      Except.ok ⟨fsExamplesAfter, [summaryLine 0], true⟩ :=
  second_run_converts_zero fsExamples dP fsExamplesAfter examplesOut (by rfl)

/-- C6 counterexample: the script checks `exists()`, not `is_dir()`: a
path occupied by a regular file does not denote an existing directory,
yet the run reports no directory-not-found failure and returns success
(`True` with a zero-count summary). -/
theorem existing_file_path_not_reported_cex :
    fsFileAtPath.isDir dP = false ∧
    convert_namespace_to_folders fsFileAtPath dP =
      Except.ok ⟨fsFileAtPath, [summaryLine 0], true⟩ ∧
    dirMissingLine dP ∉ [summaryLine 0] := by
  refine ⟨by rfl, by rfl, by decide⟩

/-- C6 (amended): a NON-EXISTENT path makes the converter print the
missing-directory error, return `False`, and leave the filesystem
untouched; a path that exists but is a regular file passes the check
and the run reports success. -/
theorem missing_path_reports_and_mutates_nothing (fs : FS) (d : FPath)
    (h : fs.pathExists d = false) :
    convert_namespace_to_folders fs d = Except.ok ⟨fs, [dirMissingLine d], false⟩ := by
  unfold convert_namespace_to_folders
  rw [if_neg (by simp [h])]

/-- Witness for C6 (amended), on the empty filesystem. -/
theorem missing_path_reports_and_mutates_nothing_witness :
    convert_namespace_to_folders ⟨[]⟩ dP =
      Except.ok ⟨⟨[]⟩, [dirMissingLine dP], false⟩ :=
  missing_path_reports_and_mutates_nothing ⟨[]⟩ dP (by rfl)

/-- C7 counterexample: `x.md` has no separator in its stem and is
skipped, yet it does not survive the run: the candidate `___x.md` splits
into `["", "x"]`, the empty folder chunk is dropped by `pathlib`, and
the move lands on `d/x.md`, silently overwriting the skipped file — the
entry with tag 1 is gone from the final filesystem. -/
theorem skipped_file_overwritten_cex :
    containsSep (stemOfName ("x.md".data)) = false ∧
    (⟨dP ++ ["x.md".data], NodeKind.file, 1⟩ : Entry) ∈ fsOverwrite.entries ∧
    convert_namespace_to_folders fsOverwrite dP =
      Except.ok ⟨⟨[⟨dP, NodeKind.dir, 0⟩, ⟨dP ++ ["x.md".data], NodeKind.file, 2⟩]⟩,
        ["Converting: ___x.md -> x.md", summaryLine 1], true⟩ ∧
    (⟨dP ++ ["x.md".data], NodeKind.file, 1⟩ : Entry) ∉
      (⟨[⟨dP, NodeKind.dir, 0⟩, ⟨dP ++ ["x.md".data], NodeKind.file, 2⟩]⟩ : FS).entries := by
  refine ⟨by rfl, by decide, by rfl, by decide⟩

/-- C7 (amended): a top-level `*.md` file without the separator is
skipped — processing it is a no-op, it is not moved and not counted —
and it survives a successful run at its path PROVIDED no
separator-bearing candidate's destination collides with its path; on a
collision it is silently overwritten (last-write-wins). -/
theorem skipped_file_kept_without_collision (fs : FS) (d : FPath) (fs' : FS)
    (out : List String) (e : Entry) (st : Step)
    (h : convert_namespace_to_folders fs d = Except.ok ⟨fs', out, true⟩)
    (he : e ∈ fs.entries)
    (htop : isTopMd d e.path = true)
    (hsep : containsSep (stemOfName (lastName e.path)) = false)
    (hnocol : ∀ src ∈ fs.globMd d, containsSep (stemOfName (lastName src)) = true →
      destPathOf d src ≠ e.path) :
    e ∈ fs'.entries ∧ processEntry d st e.path = Except.ok st := by
  constructor
  · rcases convert_ok_cases h with ⟨-, hr⟩ | ⟨hd, st', hrun, hr⟩
    · cases hr
    · injection hr with h1 h2 h3
      subst h1
      have hlens : ∀ src ∈ fs.globMd d, src.length = d.length + 1 := by
        intro src hsrc
        exact (isTopMd_parts (globMd_elim hsrc).1).1
      exact runFiles_keeps_skipped (fs.globMd d) hlens hrun he
        (isTopMd_parts htop).1 hsep hnocol
  · unfold processEntry
    rw [if_neg (by simp [hsep])]

/-- Witness for C7 (amended): `x.md` survives the run over `fsSkipKeep`
and processing it is a no-op. -/
theorem skipped_file_kept_without_collision_witness :
    (⟨dP ++ ["x.md".data], NodeKind.file, 1⟩ : Entry) ∈ fsSkipKeepAfter.entries ∧
    processEntry dP ⟨fsSkipKeep, [], 0⟩ (dP ++ ["x.md".data]) =
      Except.ok ⟨fsSkipKeep, [], 0⟩ :=
  skipped_file_kept_without_collision fsSkipKeep dP fsSkipKeepAfter
    ["Converting: a___b.md -> a/b.md", summaryLine 1]
    ⟨dP ++ ["x.md".data], NodeKind.file, 1⟩ ⟨fsSkipKeep, [], 0⟩
    (by rfl) (by decide) (by decide) (by rfl) (by decide)

/-- C8 counterexample: the response `" y"` is not a case variant of
`"y"` or `"yes"` (lowercasing alone leaves `" y"` unequal to both), so
by the claim it should cancel with no mutation; the script additionally
strips whitespace, so it proceeds: the run exits 0 having MUTATED the
filesystem, and `Cancelled.` is never printed. -/
theorem padded_yes_proceeds_cex :
    pyLower (" y") ≠ "y" ∧ pyLower (" y") ≠ "yes" ∧
    (main ["convert.py", "d"] (" y") fsExamples).outcome = Outcome.exited 0 ∧
    (main ["convert.py", "d"] (" y") fsExamples).fs ≠ fsExamples ∧
    "Cancelled." ∉ (main ["convert.py", "d"] (" y") fsExamples).printed := by
  refine ⟨by decide, by decide, by rfl, by decide, by decide⟩

/-- C8 (amended): the confirmation gate is the lowercased,
whitespace-stripped response: when that normal form is neither `y` nor
`yes`, the run is cancelled with exit status 0, `Cancelled.` printed
after the banner, and the filesystem untouched; when it is `y` or `yes`
the converter runs and the final filesystem is whatever the converter
leaves. -/
theorem confirmation_normalized_gate (argv : List String) (r : String) (fs : FS)
    (h2 : argv.length = 2) :
    (¬(normalizeResponse r = "y" ∨ normalizeResponse r = "yes") →
      main argv r fs =
        ⟨fs, headerLines (argv.getD 1 emptyStr) ++ ["Cancelled."], Outcome.exited 0⟩) ∧
    ((normalizeResponse r = "y" ∨ normalizeResponse r = "yes") →
      (main argv r fs).fs = fsAfterConvert fs (parsePath (argv.getD 1 emptyStr))) := by
  constructor
  · intro hno
    simp only [main]
    rw [if_pos h2, if_neg hno]
  · intro hyes
    simp only [main]
    rw [if_pos h2, if_pos hyes]
    unfold fsAfterConvert
    cases convert_namespace_to_folders fs (parsePath (argv.getD 1 emptyStr)) with
    | ok r' =>
      by_cases hr : r'.ret = true
      · simp [hr]
      · simp [hr]
    | error c => rfl

/-- Witness for C8 (amended), with the declining response `no`. -/
theorem confirmation_normalized_gate_witness :
    (¬(normalizeResponse ("no") = "y" ∨ normalizeResponse ("no") = "yes") →
      main ["convert.py", "d"] ("no") fsExamples =
        ⟨fsExamples, headerLines (["convert.py", "d"].getD 1 emptyStr) ++ ["Cancelled."],
          Outcome.exited 0⟩) ∧
    ((normalizeResponse ("no") = "y" ∨ normalizeResponse ("no") = "yes") →
      (main ["convert.py", "d"] ("no") fsExamples).fs =
        fsAfterConvert fsExamples (parsePath (["convert.py", "d"].getD 1 emptyStr))) :=
  confirmation_normalized_gate ["convert.py", "d"] ("no") fsExamples (by rfl)

/-- C9: the folder chain of a candidate's destination is created before
the move is attempted, so when the move itself raises (the crash is not
a mkdir failure), every intermediate folder of the destination is a
directory of the crash-state filesystem: per-file conversion is not
atomic, nothing is rolled back. -/
theorem folders_persist_on_move_failure (d : FPath) (st : Step) (src : FPath) (c : ConvCrash)
    (h : processEntry d st src = Except.error c)
    (hmv : isMkdirErr c.err = false) :
    (folderChain d (partsOf src).dropLast).all (fun q => c.fs.isDir q) = true := by
  obtain ⟨-, hcase⟩ := processEntry_error_cases h
  rcases hcase with ⟨p, -, herr, -⟩ | ⟨folder, hm, -, -⟩
  · rw [herr] at hmv
    simp [isMkdirErr] at hmv
  · rw [List.all_eq_true]
    intro q hq
    exact mkdirs_ok_isDir _ _ _ _ _ hm q hq

/-- Witness for C9, on the failing move of `fsMoveErr`. -/
theorem folders_persist_on_move_failure_witness :
    (folderChain dP (partsOf srcMoveErr).dropLast).all (fun q => cMoveErr.fs.isDir q) = true :=
  folders_persist_on_move_failure dP ⟨fsMoveErr, [], 0⟩ srcMoveErr cMoveErr (by rfl) (by rfl)

/-- C10: `glob("*.md")` matches a top-level DIRECTORY named
`x___y.md` too: it is listed as a candidate, converted and moved (with
its subtree) to `d/x/y.md`, counted in the summary, rather than being
excluded as a non-file. -/
theorem md_named_directory_is_candidate :
    (dP ++ ["x___y.md".data]) ∈ fsDirCand.globMd dP ∧
    convert_namespace_to_folders fsDirCand dP =
      Except.ok ⟨fsDirCandAfter, ["Converting: x___y.md -> x/y.md", summaryLine 1], true⟩ := by
  refine ⟨by decide, by rfl⟩


end LogseqConvert
